import Mathlib

/-!
# Verification of the Hybrid Ranking & Fusion Engine

Shallow embedding of the ranking core of the `INST326-steam-search-engine`
repository, together with proofs and refutations of the specification claims.

Sources embedded (Python → Lean):
* `backend/app/services/search_service.py`
  — `_tokenize`, the filter construction in `search`, `hybrid_search`'s
  fallback orchestration, `_reciprocal_rank_fusion`.
* `backend/app/services/embedding_service.py` — `EmbeddingService.encode_query`.
* `backend-INST326-steam-search/search_algorithms.py`
  — `tokenize_text`, `search_bm25_index` (post-processing of the BM25 scores),
  `apply_fusion_ranking` with its inner `normalize_scores`.
* `backend-INST326-steam-search/app/core/search/service.py`
  — `_mock_bm25_search`, `_apply_fusion_ranking`, `_calculate_quality_bonus`.

Modelling conventions: Python floats are modelled by `ℚ` (the claims under
study are order/arithmetic claims not affected by rounding), Python dicts by
insertion-ordered association lists, Python's stable `sort(reverse=True)` by
`List.insertionSort` with the relation "my key is ≥ your key" (which is stable
in exactly the same way), and Python's `random.random()` stream by an explicit
`ℕ → ℚ` oracle.  Text processing is modelled on the ASCII fragment (the
regexes `\w`/`\s` and `str.lower` agree with the model there).
-/

set_option maxHeartbeats 1000000

namespace SteamSearch

/-! # PART 1 — DEFINITIONS (shallow embedding of the source) -/

/-! ## Stable descending sort (Python `list.sort(key=…, reverse=True)`)

Python's sort is stable; with `reverse=True` equal keys keep their original
relative order.  `List.insertionSort` with the relation `key b ≤ key a`
has the same behaviour: an element is inserted before the first element
whose key is `≤` its own, so earlier elements with equal keys stay first. -/

def keyGE {α : Type} (key : α → ℚ) (a b : α) : Prop := key b ≤ key a

instance {α : Type} (key : α → ℚ) : DecidableRel (keyGE key) :=
  fun a b => inferInstanceAs (Decidable (key b ≤ key a))

instance {α : Type} (key : α → ℚ) : IsTotal α (keyGE key) :=
  ⟨fun a b => le_total (key b) (key a)⟩

instance {α : Type} (key : α → ℚ) : IsTrans α (keyGE key) :=
  ⟨fun _ _ _ h1 h2 => le_trans h2 h1⟩

def sortDesc {α : Type} (key : α → ℚ) (l : List α) : List α :=
  l.insertionSort (keyGE key)

/-! ## Python dicts as insertion-ordered association lists -/

/-- First-occurrence lookup in an association list; on lists with unique keys
this is exactly Python `d[k]` / `d.get(k)`. -/
def lookupScore : List (ℕ × ℚ) → ℕ → Option ℚ
  | [], _ => none
  | p :: rest, gid => if p.1 = gid then some p.2 else lookupScore rest gid

/-- Python `d[k] = v`: overwrite in place if the key exists, else append. -/
def setScore : List (ℕ × ℚ) → ℕ → ℚ → List (ℕ × ℚ)
  | [], gid, v => [(gid, v)]
  | p :: rest, gid, v =>
    if p.1 = gid then (gid, v) :: rest else p :: setScore rest gid v

/-- Python `d[k] += v` if `k in d` else `d[k] = v`. -/
def addScore : List (ℕ × ℚ) → ℕ → ℚ → List (ℕ × ℚ)
  | [], gid, v => [(gid, v)]
  | p :: rest, gid, v =>
    if p.1 = gid then (p.1, p.2 + v) :: rest else p :: addScore rest gid v

/-! ## `backend/app/services/search_service.py` — `_reciprocal_rank_fusion`

The Python function receives the BM25 result list and the semantic result
list (each already sorted descending by its raw score by the upstream
search passes), enumerates each with 1-based ranks, fills a `scores` dict
(`scores[gid] = alpha * 1/(k+rank)` on the BM25 pass, `+= (1-alpha) * 1/(k+rank)`
or fresh insert on the semantic pass), and finally sorts the dict keys by
score, descending (`sorted(..., reverse=True)`, stable).  Here a result item
is represented by its `game_id`; the emitted `fusion_score` field is
`round(score, 6)` of the score computed below, while the ranking itself uses
the unrounded score. -/

/-- Default of the `k: int = 60` parameter of `_reciprocal_rank_fusion`. -/
def rrfDefaultK : ℕ := 60

/-- The BM25 pass: `for rank, result in enumerate(bm25_results, start=1):
scores[game_id] = alpha * (1.0 / (k + rank))`. -/
def rrfPassBm (alpha : ℚ) (k : ℕ) : List ℕ → ℕ → List (ℕ × ℚ) → List (ℕ × ℚ)
  | [], _, acc => acc
  | gid :: rest, rank, acc =>
    rrfPassBm alpha k rest (rank + 1)
      (setScore acc gid (alpha * (1 / ((k : ℚ) + (rank : ℚ)))))

/-- The semantic pass: `scores[game_id] += (1 - alpha) * rrf_score` when the
id is already present, else a fresh insert of `(1 - alpha) * rrf_score`. -/
def rrfPassSem (alpha : ℚ) (k : ℕ) : List ℕ → ℕ → List (ℕ × ℚ) → List (ℕ × ℚ)
  | [], _, acc => acc
  | gid :: rest, rank, acc =>
    rrfPassSem alpha k rest (rank + 1)
      (addScore acc gid ((1 - alpha) * (1 / ((k : ℚ) + (rank : ℚ)))))

/-- The `scores` dict of `_reciprocal_rank_fusion` after both passes,
in Python dict insertion order (BM25 items first, then semantic-only items). -/
def rrfScores (bm sem : List ℕ) (alpha : ℚ) (k : ℕ) : List (ℕ × ℚ) :=
  rrfPassSem alpha k sem 1 (rrfPassBm alpha k bm 1 [])

/-- `SearchService._reciprocal_rank_fusion`, as the list of
`(game_id, fused score)` in output order: the dict entries sorted by score
descending with Python's stable sort. -/
def reciprocalRankFusion (bm sem : List ℕ) (alpha : ℚ) (k : ℕ) :
    List (ℕ × ℚ) :=
  sortDesc Prod.snd (rrfScores bm sem alpha k)

/-- 0-based index of the first occurrence of an id in a ranked id list. -/
def idxOf : List ℕ → ℕ → Option ℕ
  | [], _ => none
  | x :: rest, gid =>
    if x = gid then some 0 else (idxOf rest gid).map (· + 1)

/-- The claim's per-list RRF contribution: `1 / (k + rank_in_list)` for an
item present at 1-based `rank_in_list`, `0` for an absent item. -/
def rrfContribution (rankedIds : List ℕ) (k : ℕ) (gid : ℕ) : ℚ :=
  match idxOf rankedIds gid with
  | some i => 1 / ((k : ℚ) + ((i + 1 : ℕ) : ℚ))
  | none => 0


/-- The per-request lexical ranking applied in `search` before fusion
(`results.sort(key=lambda x: x['bm25_score'], reverse=True)`): the id list
fed to `_reciprocal_rank_fusion`, in descending raw-score order. -/
def rankIdsDesc (results : List (ℕ × ℚ)) : List ℕ :=
  (sortDesc Prod.snd results).map Prod.fst

/-- Multiply every raw score in a scored list by a constant. -/
def scaleScores (c : ℚ) (l : List (ℕ × ℚ)) : List (ℕ × ℚ) :=
  l.map (fun p => (p.1, c * p.2))

/-- The ordering asserted by the spec for fused result lists: strictly
descending fused score, with ties broken by ascending item id. -/
def claimTieOrder (l : List (ℕ × ℚ)) : Prop :=
  l.Pairwise (fun p q => q.2 < p.2 ∨ (q.2 = p.2 ∧ p.1 < q.1))

instance (l : List (ℕ × ℚ)) : Decidable (claimTieOrder l) := by
  unfold claimTieOrder
  infer_instance

/-! ## `backend-INST326-steam-search/app/core/search/service.py`

`SearchService` there implements mock scorers and a linear fusion ranker.
`GameInfo` is modelled with exactly the fields these functions read. -/

structure GameInfo where
  game_id : ℕ
  title : String
  description : String
  genres : List String
  review_status : String
  deck_comp : Bool
  price : ℚ
deriving DecidableEq

/-- `SearchResult(game=…, score=…, search_type="fusion")`; `rank` is set
afterwards by `_apply_fusion_ranking` (modelled as initially 0). -/
structure SearchResult where
  game : GameInfo
  score : ℚ
  search_type : String
  rank : ℕ
deriving DecidableEq

/-- `SearchService._calculate_quality_bonus`: review-status table lookup
(default 0.0) + 0.5 Steam-Deck bonus + price bonus (0.3 free / 0.2 cheap). -/
def calculateQualityBonus (g : GameInfo) : ℚ :=
  let reviewBonus : ℚ :=
    if g.review_status = "Overwhelmingly Positive" then 2
    else if g.review_status = "Very Positive" then 3 / 2
    else if g.review_status = "Positive" then 1
    else if g.review_status = "Mostly Positive" then 1 / 2
    else if g.review_status = "Mixed" then 0
    else if g.review_status = "Mostly Negative" then -(1 / 2)
    else if g.review_status = "Negative" then -1
    else if g.review_status = "Very Negative" then -(3 / 2)
    else 0
  let deckBonus : ℚ := if g.deck_comp then 1 / 2 else 0
  let priceBonus : ℚ :=
    if g.price = 0 then 3 / 10
    else if g.price ≤ 20 then 1 / 5
    else 0
  reviewBonus + deckBonus + priceBonus

/-- Python dict comprehension `{game.game_id: score for game, score in rs}`
(later assignments overwrite earlier ones, insertion order kept). -/
def dictOfPairs (l : List (ℕ × ℚ)) : List (ℕ × ℚ) :=
  l.foldl (fun acc p => setScore acc p.1 p.2) []

/-- The per-id loop of `_apply_fusion_ranking`: weighted fusion score from
the two score dicts (`.get(game_id, 0.0)`), skip unless `fusion_score > 0`,
find the game object in `bm25_results + semantic_results`, add the quality
bonus.  `enumIds` is the iteration order of the Python set
`set(bm25_scores) | set(semantic_scores)` (implementation-defined, so taken
as a parameter). -/
def fusionLoop (bmD semD : List (ℕ × ℚ)) (pool : List (GameInfo × ℚ))
    (bmW semW : ℚ) : List ℕ → List SearchResult
  | [] => []
  | gid :: rest =>
    let b := (lookupScore bmD gid).getD 0
    let s := (lookupScore semD gid).getD 0
    let fusionScore := b * bmW + s * semW
    if 0 < fusionScore then
      match pool.find? (fun gq => gq.1.game_id == gid) with
      | some gq =>
        { game := gq.1, score := fusionScore + calculateQualityBonus gq.1,
          search_type := "fusion", rank := 0 }
          :: fusionLoop bmD semD pool bmW semW rest
      | none => fusionLoop bmD semD pool bmW semW rest
    else fusionLoop bmD semD pool bmW semW rest

/-- `SearchService._apply_fusion_ranking`: build the two score dicts, fuse
over the id pool, sort descending by score (stable) and assign
`result.rank = i + 1` over the sorted order. -/
def applyFusionRankingCore (enumIds : List ℕ)
    (bmRes semRes : List (GameInfo × ℚ)) (bmW semW : ℚ) : List SearchResult :=
  let bmD := dictOfPairs (bmRes.map (fun gq => (gq.1.game_id, gq.2)))
  let semD := dictOfPairs (semRes.map (fun gq => (gq.1.game_id, gq.2)))
  let sorted := sortDesc SearchResult.score
    (fusionLoop bmD semD (bmRes ++ semRes) bmW semW enumIds)
  sorted.enum.map (fun p => { p.2 with rank := p.1 + 1 })

/-- Python `str.lower()` per character (ASCII fragment). -/
def pyStrLower (s : String) : String := String.mk (s.data.map Char.toLower)

/-- Python `sep.join(xs)`. -/
def pyJoin (sep : String) : List String → String
  | [] => ""
  | [x] => x
  | x :: rest => x ++ sep ++ pyJoin sep rest

/-- Python `needle in hay` on strings (contiguous substring). -/
def pySubstr (needle hay : String) : Bool :=
  decide (needle.data <:+: hay.data)

/-- The deterministic part of one `_mock_bm25_search` iteration: token
matches against the tokenized title (weight `BM25_TITLE_WEIGHT = 3.0`),
substring matches against the lower-cased joined genre text
(`BM25_GENRE_WEIGHT = 2.0`) and token matches against the tokenized
description (`BM25_DESCRIPTION_WEIGHT = 1.0`).  The tokenizer
(`app/utils/text.py: tokenize_text`, a pure function) is injected as `tok`. -/
def mockBm25Score (tok : String → List String) (tB gB dW : ℚ)
    (queryTokens : List String) (g : GameInfo) : ℚ :=
  let titleTokens := tok g.title
  let titleMatches := queryTokens.countP (fun t => decide (t ∈ titleTokens))
  let s1 : ℚ := if 0 < titleMatches then (titleMatches : ℚ) * tB else 0
  let genreText := pyStrLower (pyJoin " " g.genres)
  let genreMatches := queryTokens.countP (fun t => pySubstr t genreText)
  let s2 : ℚ := s1 + (if 0 < genreMatches then (genreMatches : ℚ) * gB else 0)
  let descTokens := tok g.description
  let descMatches := queryTokens.countP (fun t => decide (t ∈ descTokens))
  s2 + (if 0 < descMatches then (descMatches : ℚ) * dW else 0)

/-- The loop of `_mock_bm25_search`: games with positive score are appended
after multiplying by the random factor `0.8 + random.random() * 0.4`; the
`random.random()` stream is modelled by `rng`, consumed one draw per
positively-scored game (`pos` is the index of the next draw). -/
def mockBm25Loop (tok : String → List String) (tB gB dW : ℚ)
    (queryTokens : List String) (rng : ℕ → ℚ) :
    List GameInfo → ℕ → List (GameInfo × ℚ)
  | [], _ => []
  | g :: rest, pos =>
    let score := mockBm25Score tok tB gB dW queryTokens g
    if 0 < score then
      (g, score * (4 / 5 + rng pos * (2 / 5)))
        :: mockBm25Loop tok tB gB dW queryTokens rng rest (pos + 1)
    else mockBm25Loop tok tB gB dW queryTokens rng rest pos

/-- `SearchService._mock_bm25_search`: tokenize the query (empty token list
returns `[]`), score every game, keep positive scores with the random
factor applied, sort descending by score. -/
def mockBm25Search (tok : String → List String) (tB gB dW : ℚ)
    (games : List GameInfo) (query : String) (rng : ℕ → ℚ) :
    List (GameInfo × ℚ) :=
  let queryTokens := tok query
  if queryTokens = [] then []
  else sortDesc Prod.snd (mockBm25Loop tok tB gB dW queryTokens rng games 0)

/-- Number of random draws `_mock_bm25_search` makes: one per game whose
deterministic score is positive. -/
def positiveCount (tok : String → List String) (tB gB dW : ℚ)
    (queryTokens : List String) (games : List GameInfo) : ℕ :=
  games.countP (fun g => decide (0 < mockBm25Score tok tB gB dW queryTokens g))

/-! ## `backend-INST326-steam-search/search_algorithms.py` — linear fusion -/

/-- Python `max(scores) if scores else 1.0`. -/
def listMaxD : List ℚ → ℚ
  | [] => 1
  | s :: rest => rest.foldl max s

/-- Python `min(scores) if scores else 0.0`. -/
def listMinD : List ℚ → ℚ
  | [] => 0
  | s :: rest => rest.foldl min s

/-- The assignment loop `for game_id, score in results:
normalized[game_id] = f(score)` into a fresh dict. -/
def setAllScores (f : ℚ → ℚ) (l : List (ℕ × ℚ)) : List (ℕ × ℚ) :=
  l.foldl (fun a p => setScore a p.1 (f p.2)) []

/-- The inner `normalize_scores` of `apply_fusion_ranking`: empty input
gives `{}`; otherwise `score_range = max - min if max != min else 1.0` and
every entry is assigned `(score - min) / score_range` into a fresh dict. -/
def normalizeScoresAFR (results : List (ℕ × ℚ)) : List (ℕ × ℚ) :=
  if results = [] then []
  else
    setAllScores (fun s =>
      (s - listMinD (results.map Prod.snd)) /
        (if listMaxD (results.map Prod.snd) ≠ listMinD (results.map Prod.snd)
          then listMaxD (results.map Prod.snd) - listMinD (results.map Prod.snd)
          else 1)) results

/-- `search_algorithms.py: apply_fusion_ranking`: normalize both lists,
fuse `bm25_weight * bm25 + faiss_weight * faiss` over the id union
(`all_game_ids` is a Python set whose iteration order is
implementation-defined, hence the `enumIds` parameter), sort descending. -/
def applyFusionRankingAlg (enumIds : List ℕ) (bm faiss : List (ℕ × ℚ))
    (bmW fW : ℚ) : List (ℕ × ℚ) :=
  sortDesc Prod.snd (enumIds.map (fun gid =>
    (gid, bmW * (lookupScore (normalizeScoresAFR bm) gid).getD 0
      + fW * (lookupScore (normalizeScoresAFR faiss) gid).getD 0)))

/-- Min-max normalisation as the claim words it: a non-empty all-equal list
maps to the constant `1.0` (for comparison with `normalizeScoresAFR`). -/
def specNormalize (results : List (ℕ × ℚ)) : List (ℕ × ℚ) :=
  if results = [] then []
  else
    let scores := results.map Prod.snd
    let maxScore := listMaxD scores
    let minScore := listMinD scores
    if maxScore = minScore then results.map (fun p => (p.1, 1))
    else results.map (fun p => (p.1, (p.2 - minScore) / (maxScore - minScore)))

/-- Per-item normalized value of `normalizeScoresAFR`, read off the raw
list: 0 for an absent item (and on an empty list), else
`(s - min) / (max - min)` with range 1 substituted when `max = min`. -/
def minMaxValue (l : List (ℕ × ℚ)) (gid : ℕ) : ℚ :=
  match lookupScore l gid with
  | none => 0
  | some s =>
    (s - listMinD (l.map Prod.snd)) /
      (if listMaxD (l.map Prod.snd) ≠ listMinD (l.map Prod.snd) then
        listMaxD (l.map Prod.snd) - listMinD (l.map Prod.snd) else 1)

/-! ## Tokenizers -/

/-- ASCII fragment of the regex class `\s`. -/
def isPySpaceChar (c : Char) : Bool :=
  c = ' ' || c = '\t' || c = '\n' || c = '\x0b' || c = '\x0c' || c = '\r'

/-- ASCII fragment of the regex class `\w`: `[a-zA-Z0-9_]`. -/
def isPyWordChar (c : Char) : Bool := c.isAlphanum || c = '_'

/-- Maximal runs of characters satisfying `keep`, in order.  `str.split()`
is `runsAux (not ∘ whitespace)`, `re.findall(r'\w+', s)` is
`runsAux isPyWordChar`. -/
def runsAux (keep : Char → Bool) : List Char → List Char → List (List Char)
  | [], acc => if acc = [] then [] else [acc.reverse]
  | c :: rest, acc =>
    if keep c then runsAux keep rest (c :: acc)
    else if acc = [] then runsAux keep rest []
    else acc.reverse :: runsAux keep rest []

/-- `search_algorithms.py: tokenize_text`: empty-input guard, lower-case,
`re.sub(r'[^\w\s]', ' ', …)`, `str.split()`, keep tokens with
`token and len(token) > 1`. -/
def tokenize_text (text : String) : List String :=
  if text = "" then []
  else
    let lowered := text.data.map Char.toLower
    let subbed := lowered.map (fun c =>
      if isPyWordChar c || isPySpaceChar c then c else ' ')
    ((runsAux (fun c => ! isPySpaceChar c) subbed []).filter
        (fun t => ! t.isEmpty && decide (1 < t.length))).map
      (fun t => String.mk t)

/-- `search_service.py: SearchService._tokenize`:
`re.findall(r'\w+', text.lower())` behind the empty-input guard. -/
def tokenizeBackend (text : String) : List String :=
  if text = "" then []
  else (runsAux isPyWordChar (text.data.map Char.toLower) []).map
    (fun t => String.mk t)

/-! ## `search_algorithms.py` — `search_bm25_index` -/

/-- `search_bm25_index` post-processing.  The loaded corpus is represented
by its `game_id` column (`game_corpus[i].get('game_id', 0)` is
`corpus.getD i 0`) and `scores` is the array the external
`bm25_index.get_scores(query_tokens)` call returns, taken as an input:
pairs with `i < len(game_corpus)` and `score > 0` are collected in corpus
order, sorted descending by score and truncated to `limit`;  a missing
corpus or an empty token list short-circuits to `[]`. -/
def search_bm25_index (query : String) (corpus : List ℕ) (scores : List ℚ)
    (limit : ℕ) : List (ℕ × ℚ) :=
  if corpus = [] then []
  else if tokenize_text query = [] then []
  else
    (sortDesc Prod.snd (scores.enum.filterMap (fun p =>
      if p.1 < corpus.length ∧ 0 < p.2 then some (corpus.getD p.1 0, p.2)
      else none))).take limit

/-! ## `backend/app/services/search_service.py` — filter construction

`search` (lines 133-179) appends one PostgREST condition per filter field;
PostgREST combines appended conditions conjunctively.  `matchesFilters`
is the predicate the built query applies to a (non-null-field) row.  Note
the guards: the numeric fields use `is not None` but `type`, `genres`,
`categories` and the date strings use Python truthiness, so empty strings
and empty lists append no condition. -/

structure SearchFilters where
  price_min : Option ℕ
  price_max : Option ℕ
  genres : Option (List String)
  categories : Option (List String)
  type : Option String
  release_date_after : Option String
  release_date_before : Option String
  min_reviews : Option ℕ
deriving DecidableEq

structure GameRow where
  appid : ℕ
  price_cents : ℕ
  genres : List String
  categories : List String
  type : String
  release_date : String
  total_reviews : ℕ
deriving DecidableEq

/-- `if filters.x is not None: query.gte(col, x)`. -/
def geCond (o : Option ℕ) (v : ℕ) : Bool :=
  match o with
  | none => true
  | some m => decide (m ≤ v)

/-- `if filters.x is not None: query.lte(col, x)`. -/
def leCond (o : Option ℕ) (v : ℕ) : Bool :=
  match o with
  | none => true
  | some m => decide (v ≤ m)

/-- `if filters.type: query.eq('type', filters.type)` — empty string falsy. -/
def typeCond (o : Option String) (v : String) : Bool :=
  match o with
  | none => true
  | some t => if t = "" then true else decide (v = t)

/-- `if filters.genres: for genre in filters.genres: query.contains(col,
[genre])` — one containment condition per listed value (AND), empty list
falsy. -/
def setCond (o : Option (List String)) (mem : List String) : Bool :=
  match o with
  | none => true
  | some gs => if gs = [] then true else gs.all (fun x => decide (x ∈ mem))

/-- `if filters.release_date_after: query.gte('release_date', d)` — empty
string falsy; ISO date strings compare like dates. -/
def dateAfterCond (o : Option String) (v : String) : Bool :=
  match o with
  | none => true
  | some d => if d = "" then true else decide (d ≤ v)

/-- `if filters.release_date_before: query.lte('release_date', d)`. -/
def dateBeforeCond (o : Option String) (v : String) : Bool :=
  match o with
  | none => true
  | some d => if d = "" then true else decide (v ≤ d)

/-- The conjunction of conditions `search` appends, in source order. -/
def matchesFilters (f : SearchFilters) (g : GameRow) : Bool :=
  geCond f.price_min g.price_cents
    && (leCond f.price_max g.price_cents
    && (typeCond f.type g.type
    && (setCond f.genres g.genres
    && (setCond f.categories g.categories
    && (dateAfterCond f.release_date_after g.release_date
    && (dateBeforeCond f.release_date_before g.release_date
    && geCond f.min_reviews g.total_reviews))))))

/-- The filter predicate as the claim words it: every present (non-null)
sub-condition must hold, genre/category filters as subset checks. -/
def specFilterPred (f : SearchFilters) (g : GameRow) : Prop :=
  (∀ m, f.price_min = some m → m ≤ g.price_cents)
    ∧ (∀ m, f.price_max = some m → g.price_cents ≤ m)
    ∧ (∀ t, f.type = some t → g.type = t)
    ∧ (∀ gs, f.genres = some gs → ∀ x ∈ gs, x ∈ g.genres)
    ∧ (∀ cs, f.categories = some cs → ∀ x ∈ cs, x ∈ g.categories)
    ∧ (∀ d, f.release_date_after = some d → d ≤ g.release_date)
    ∧ (∀ d, f.release_date_before = some d → g.release_date ≤ d)
    ∧ (∀ m, f.min_reviews = some m → m ≤ g.total_reviews)

/-- A filter whose only present field is `type = ""` (allowed by the
`SearchFilters` model: `type: Optional[str]` with no length bound). -/
def filterTypeEmpty : SearchFilters :=
  ⟨none, none, none, none, some "", none, none, none⟩

/-- A game row of type `"game"`. -/
def gameRowEx : GameRow := ⟨10, 0, [], [], "game", "2020-01-01", 0⟩

/-! ## `backend/app/services/search_service.py` — `hybrid_search` -/

structure HybridResponse where
  results : List (ℕ × ℚ)
  total : ℕ
  search_type : String
  alpha : ℚ
  fallbackReason : Option String
deriving DecidableEq

/-- `hybrid_search` on the relevance path (`sort_by == RELEVANCE`,
non-empty query), with the two search passes as inputs: `bmOutcome` is
`self.search(...)` (its exceptions propagate through the outer
`except ...: raise`), `semOutcome` is `self.semantic_search(...)` as
`(search_type, results)` — its exception is caught (`except Exception as
e:`) and, like a semantic pass that reports `semantic_fallback_bm25`,
produces the BM25-only fallback response `{results:
bm25_results[:limit], search_type: 'hybrid_fallback_bm25',
fallback_reason: …}`; otherwise the lists are fused with
`_reciprocal_rank_fusion` (default `k`) and paginated
`fused[offset:offset+limit]`. -/
def hybrid_search (bmOutcome : Except String (List (ℕ × ℚ) × ℕ))
    (semOutcome : Except String (String × List (ℕ × ℚ)))
    (alpha : ℚ) (offset limit : ℕ) : Except String HybridResponse :=
  match bmOutcome with
  | .error e => .error e
  | .ok (bmResults, bmTotal) =>
    match semOutcome with
    | .error e =>
      .ok ⟨bmResults.take limit, bmTotal, "hybrid_fallback_bm25", alpha,
        some ("Semantic search error: " ++ e)⟩
    | .ok (st, semResults) =>
      if st = "semantic_fallback_bm25" then
        .ok ⟨bmResults.take limit, bmTotal, "hybrid_fallback_bm25", alpha,
          some "Semantic search function not available"⟩
      else
        let fused := reciprocalRankFusion (bmResults.map Prod.fst)
          (semResults.map Prod.fst) alpha rrfDefaultK
        .ok ⟨(fused.drop offset).take limit, fused.length, "hybrid", alpha,
          none⟩

/-! ## `backend/app/services/embedding_service.py` — `encode_query` -/

/-- Python `str.strip()` with the default (whitespace) characters. -/
def pyStrip (s : String) : String :=
  String.mk (((s.data.dropWhile isPySpaceChar).reverse.dropWhile
    isPySpaceChar).reverse)

/-- The sentence-transformer model (`all-MiniLM-L6-v2`, dimension 384), an
injected capability: `dim` is `get_sentence_embedding_dimension()`,
`encode` is `model.encode(query)`. -/
structure EmbedModel where
  dim : ℕ
  encode : String → List ℚ

/-- `EmbeddingService.encode_query`: a blank query (Python `not query or
not query.strip()`) returns the zero vector of the model dimension instead
of calling the model; other queries are encoded by the model. -/
def encode_query (m : EmbedModel) (q : String) : List ℚ :=
  if q = "" ∨ pyStrip q = "" then List.replicate m.dim 0 else m.encode q

/-! # PART 2 — LEMMAS AND CLAIM THEOREMS -/

theorem sortDesc_sorted {α : Type} (key : α → ℚ) (l : List α) :
    (sortDesc key l).Sorted (keyGE key) :=
  List.sorted_insertionSort (keyGE key) l

theorem sortDesc_perm {α : Type} (key : α → ℚ) (l : List α) :
    (sortDesc key l).Perm l :=
  List.perm_insertionSort (keyGE key) l

theorem mem_sortDesc {α : Type} (key : α → ℚ) {l : List α} {x : α} :
    x ∈ sortDesc key l ↔ x ∈ l :=
  (sortDesc_perm key l).mem_iff

theorem lookupScore_setScore_self (l : List (ℕ × ℚ)) (gid : ℕ) (v : ℚ) :
    lookupScore (setScore l gid v) gid = some v := by
  induction l with
  | nil => simp [setScore, lookupScore]
  | cons p rest ih =>
    by_cases h : p.1 = gid
    · simp [setScore, h, lookupScore]
    · simp [setScore, h, lookupScore, ih]

theorem lookupScore_setScore_ne (l : List (ℕ × ℚ)) {gid gid' : ℕ} (v : ℚ)
    (h : gid' ≠ gid) :
    lookupScore (setScore l gid' v) gid = lookupScore l gid := by
  induction l with
  | nil => simp [setScore, lookupScore, h]
  | cons p rest ih =>
    by_cases hp : p.1 = gid'
    · subst hp
      simp [setScore, lookupScore, h]
    · simp [setScore, hp, lookupScore, ih]

theorem lookupScore_addScore_self (l : List (ℕ × ℚ)) (gid : ℕ) (v : ℚ) :
    lookupScore (addScore l gid v) gid =
      some ((lookupScore l gid).getD 0 + v) := by
  induction l with
  | nil => simp [addScore, lookupScore]
  | cons p rest ih =>
    by_cases h : p.1 = gid
    · simp [addScore, h, lookupScore]
    · simp [addScore, h, lookupScore, ih]

theorem lookupScore_addScore_ne (l : List (ℕ × ℚ)) {gid gid' : ℕ} (v : ℚ)
    (h : gid' ≠ gid) :
    lookupScore (addScore l gid' v) gid = lookupScore l gid := by
  induction l with
  | nil => simp [addScore, lookupScore, h]
  | cons p rest ih =>
    by_cases hp : p.1 = gid'
    · subst hp
      simp [addScore, lookupScore, h]
    · simp [addScore, hp, lookupScore, ih]

theorem keys_setScore (l : List (ℕ × ℚ)) (gid : ℕ) (v : ℚ) :
    ((setScore l gid v).map Prod.fst) =
      if gid ∈ l.map Prod.fst then l.map Prod.fst else l.map Prod.fst ++ [gid] := by
  induction l with
  | nil => simp [setScore]
  | cons p rest ih =>
    by_cases h : p.1 = gid
    · subst h
      simp [setScore]
    · have hne : ¬ gid = p.1 := fun hh => h hh.symm
      simp only [setScore, if_neg h, List.map_cons, ih, List.mem_cons, hne,
        false_or]
      by_cases hm : gid ∈ rest.map Prod.fst
      · simp [hm]
      · simp [hm]

theorem keys_addScore (l : List (ℕ × ℚ)) (gid : ℕ) (v : ℚ) :
    ((addScore l gid v).map Prod.fst) =
      if gid ∈ l.map Prod.fst then l.map Prod.fst else l.map Prod.fst ++ [gid] := by
  induction l with
  | nil => simp [addScore]
  | cons p rest ih =>
    by_cases h : p.1 = gid
    · subst h
      simp [addScore]
    · have hne : ¬ gid = p.1 := fun hh => h hh.symm
      simp only [addScore, if_neg h, List.map_cons, ih, List.mem_cons, hne,
        false_or]
      by_cases hm : gid ∈ rest.map Prod.fst
      · simp [hm]
      · simp [hm]

theorem nodup_keys_setScore {l : List (ℕ × ℚ)} (h : (l.map Prod.fst).Nodup)
    (gid : ℕ) (v : ℚ) : ((setScore l gid v).map Prod.fst).Nodup := by
  rw [keys_setScore]
  split
  · exact h
  · next hmem =>
    refine List.nodup_append.2 ⟨h, List.nodup_singleton gid, ?_⟩
    intro a ha hb
    rw [List.mem_singleton] at hb
    subst hb
    exact hmem ha

theorem nodup_keys_addScore {l : List (ℕ × ℚ)} (h : (l.map Prod.fst).Nodup)
    (gid : ℕ) (v : ℚ) : ((addScore l gid v).map Prod.fst).Nodup := by
  rw [keys_addScore]
  split
  · exact h
  · next hmem =>
    refine List.nodup_append.2 ⟨h, List.nodup_singleton gid, ?_⟩
    intro a ha hb
    rw [List.mem_singleton] at hb
    subst hb
    exact hmem ha

/-- On key-unique association lists, lookup is invariant under permutation
(used to transfer dict lookups through the final sort). -/
theorem lookupScore_eq_some_of_mem {l : List (ℕ × ℚ)} {gid : ℕ} {v : ℚ}
    (hnd : (l.map Prod.fst).Nodup) (hmem : (gid, v) ∈ l) :
    lookupScore l gid = some v := by
  induction l with
  | nil => simp at hmem
  | cons p rest ih =>
    simp only [List.map_cons, List.nodup_cons] at hnd
    rcases List.mem_cons.1 hmem with h | h
    · subst h
      simp [lookupScore]
    · have hne : p.1 ≠ gid := by
        intro hcontra
        exact hnd.1 (hcontra ▸ (List.mem_map.2 ⟨(gid, v), h, rfl⟩))
      simp [lookupScore, hne, ih hnd.2 h]

theorem mem_of_lookupScore_eq_some {l : List (ℕ × ℚ)} {gid : ℕ} {v : ℚ}
    (h : lookupScore l gid = some v) : (gid, v) ∈ l := by
  induction l with
  | nil => simp [lookupScore] at h
  | cons p rest ih =>
    by_cases hp : p.1 = gid
    · simp [lookupScore, hp] at h
      subst h
      exact List.mem_cons.2 (Or.inl (by rw [← hp]))
    · simp [lookupScore, hp] at h
      exact List.mem_cons.2 (Or.inr (ih h))

theorem lookupScore_eq_none_iff {l : List (ℕ × ℚ)} {gid : ℕ} :
    lookupScore l gid = none ↔ gid ∉ l.map Prod.fst := by
  induction l with
  | nil => simp [lookupScore]
  | cons p rest ih =>
    by_cases hp : p.1 = gid
    · simp [lookupScore, hp]
    · have hne : ¬ gid = p.1 := fun hh => hp hh.symm
      simp [lookupScore, hp, hne, ih]

theorem lookupScore_perm {l l' : List (ℕ × ℚ)} {gid : ℕ}
    (hnd : (l.map Prod.fst).Nodup) (hperm : l.Perm l') :
    lookupScore l gid = lookupScore l' gid := by
  have hnd' : (l'.map Prod.fst).Nodup := (hperm.map Prod.fst).nodup_iff.1 hnd
  cases hv : lookupScore l gid with
  | none =>
    rw [lookupScore_eq_none_iff] at hv
    symm
    rw [lookupScore_eq_none_iff]
    exact fun h => hv ((hperm.map Prod.fst).mem_iff.2 h)
  | some v =>
    exact (lookupScore_eq_some_of_mem hnd'
      (hperm.mem_iff.1 (mem_of_lookupScore_eq_some hv))).symm

theorem idxOf_eq_none_iff {l : List ℕ} {gid : ℕ} :
    idxOf l gid = none ↔ gid ∉ l := by
  induction l with
  | nil => simp [idxOf]
  | cons x rest ih =>
    by_cases hx : x = gid
    · simp [idxOf, hx]
    · have hne : ¬ gid = x := fun hh => hx hh.symm
      simp [idxOf, hx, hne, ih]

theorem lookup_rrfPassBm_not_mem (alpha : ℚ) (k : ℕ) {bm : List ℕ}
    (rank : ℕ) (acc : List (ℕ × ℚ)) {gid : ℕ} (h : gid ∉ bm) :
    lookupScore (rrfPassBm alpha k bm rank acc) gid = lookupScore acc gid := by
  induction bm generalizing rank acc with
  | nil => simp [rrfPassBm]
  | cons x rest ih =>
    rw [List.mem_cons] at h
    push_neg at h
    rw [rrfPassBm, ih rank.succ _ h.2,
      lookupScore_setScore_ne _ _ (fun hh => h.1 hh.symm)]

theorem lookup_rrfPassBm_mem (alpha : ℚ) (k : ℕ) {bm : List ℕ}
    (rank : ℕ) (acc : List (ℕ × ℚ)) {gid : ℕ} {i : ℕ}
    (hnd : bm.Nodup) (hidx : idxOf bm gid = some i) :
    lookupScore (rrfPassBm alpha k bm rank acc) gid
      = some (alpha * (1 / ((k : ℚ) + ((rank + i : ℕ) : ℚ)))) := by
  induction bm generalizing rank acc i with
  | nil => simp [idxOf] at hidx
  | cons x rest ih =>
    rw [List.nodup_cons] at hnd
    by_cases hx : x = gid
    · subst hx
      simp only [idxOf, eq_self_iff_true, if_true, Option.some.injEq] at hidx
      subst hidx
      rw [rrfPassBm, lookup_rrfPassBm_not_mem alpha k _ _ hnd.1,
        lookupScore_setScore_self]
      norm_num
    · simp only [idxOf, if_neg hx] at hidx
      cases hrest : idxOf rest gid with
      | none => rw [hrest] at hidx; simp at hidx
      | some j =>
        rw [hrest] at hidx
        simp only [Option.map_some', Option.some.injEq] at hidx
        subst hidx
        rw [rrfPassBm, ih (rank + 1) _ hnd.2 hrest]
        have harith : rank + 1 + j = rank + (j + 1) := by omega
        rw [harith]

theorem lookup_rrfPassSem_not_mem (alpha : ℚ) (k : ℕ) {sem : List ℕ}
    (rank : ℕ) (acc : List (ℕ × ℚ)) {gid : ℕ} (h : gid ∉ sem) :
    lookupScore (rrfPassSem alpha k sem rank acc) gid = lookupScore acc gid := by
  induction sem generalizing rank acc with
  | nil => simp [rrfPassSem]
  | cons x rest ih =>
    rw [List.mem_cons] at h
    push_neg at h
    rw [rrfPassSem, ih rank.succ _ h.2,
      lookupScore_addScore_ne _ _ (fun hh => h.1 hh.symm)]

theorem lookup_rrfPassSem_mem (alpha : ℚ) (k : ℕ) {sem : List ℕ}
    (rank : ℕ) (acc : List (ℕ × ℚ)) {gid : ℕ} {i : ℕ}
    (hnd : sem.Nodup) (hidx : idxOf sem gid = some i) :
    lookupScore (rrfPassSem alpha k sem rank acc) gid
      = some ((lookupScore acc gid).getD 0
          + (1 - alpha) * (1 / ((k : ℚ) + ((rank + i : ℕ) : ℚ)))) := by
  induction sem generalizing rank acc i with
  | nil => simp [idxOf] at hidx
  | cons x rest ih =>
    rw [List.nodup_cons] at hnd
    by_cases hx : x = gid
    · subst hx
      simp only [idxOf, eq_self_iff_true, if_true, Option.some.injEq] at hidx
      subst hidx
      rw [rrfPassSem, lookup_rrfPassSem_not_mem alpha k _ _ hnd.1,
        lookupScore_addScore_self]
      norm_num
    · simp only [idxOf, if_neg hx] at hidx
      cases hrest : idxOf rest gid with
      | none => rw [hrest] at hidx; simp at hidx
      | some j =>
        rw [hrest] at hidx
        simp only [Option.map_some', Option.some.injEq] at hidx
        subst hidx
        rw [rrfPassSem, ih (rank + 1) _ hnd.2 hrest,
          lookupScore_addScore_ne _ _ hx]
        have harith : rank + 1 + j = rank + (j + 1) := by omega
        rw [harith]

theorem keys_rrfPassBm_nodup (alpha : ℚ) (k : ℕ) (bm : List ℕ) (rank : ℕ)
    {acc : List (ℕ × ℚ)} (h : (acc.map Prod.fst).Nodup) :
    ((rrfPassBm alpha k bm rank acc).map Prod.fst).Nodup := by
  induction bm generalizing rank acc with
  | nil => simpa [rrfPassBm] using h
  | cons x rest ih =>
    rw [rrfPassBm]
    exact ih rank.succ (nodup_keys_setScore h _ _)

theorem keys_rrfPassSem_nodup (alpha : ℚ) (k : ℕ) (sem : List ℕ) (rank : ℕ)
    {acc : List (ℕ × ℚ)} (h : (acc.map Prod.fst).Nodup) :
    ((rrfPassSem alpha k sem rank acc).map Prod.fst).Nodup := by
  induction sem generalizing rank acc with
  | nil => simpa [rrfPassSem] using h
  | cons x rest ih =>
    rw [rrfPassSem]
    exact ih rank.succ (nodup_keys_addScore h _ _)

theorem keys_rrfScores_nodup (bm sem : List ℕ) (alpha : ℚ) (k : ℕ) :
    ((rrfScores bm sem alpha k).map Prod.fst).Nodup :=
  keys_rrfPassSem_nodup alpha k sem 1
    (keys_rrfPassBm_nodup alpha k bm 1 (by simp))

/-- Fused-score characterisation of the `scores` dict: on duplicate-free
input lists every id gets `alpha·lexical-RRF + (1-alpha)·semantic-RRF`,
and ids absent from both lists are absent from the dict. -/
theorem lookup_rrfScores (bm sem : List ℕ) (alpha : ℚ) (k : ℕ) (gid : ℕ)
    (hbm : bm.Nodup) (hsem : sem.Nodup) :
    lookupScore (rrfScores bm sem alpha k) gid
      = if gid ∈ bm ∨ gid ∈ sem then
          some (alpha * rrfContribution bm k gid
            + (1 - alpha) * rrfContribution sem k gid)
        else none := by
  by_cases hs : gid ∈ sem
  · cases hidx : idxOf sem gid with
    | none => exact absurd (idxOf_eq_none_iff.1 hidx) (by simpa using hs)
    | some i =>
      rw [rrfScores, lookup_rrfPassSem_mem alpha k 1 _ hsem hidx,
        if_pos (Or.inr hs)]
      by_cases hb : gid ∈ bm
      · cases hbidx : idxOf bm gid with
        | none => exact absurd (idxOf_eq_none_iff.1 hbidx) (by simpa using hb)
        | some j =>
          rw [lookup_rrfPassBm_mem alpha k 1 _ hbm hbidx]
          simp only [Option.getD_some, rrfContribution, hidx, hbidx]
          have h1 : (1 : ℕ) + j = j + 1 := by omega
          have h2 : (1 : ℕ) + i = i + 1 := by omega
          rw [h1, h2]
      · rw [lookup_rrfPassBm_not_mem alpha k 1 _ hb]
        simp only [lookupScore, Option.getD_none, rrfContribution, hidx,
          idxOf_eq_none_iff.2 hb]
        have h2 : (1 : ℕ) + i = i + 1 := by omega
        rw [h2]
        ring_nf
  · rw [rrfScores, lookup_rrfPassSem_not_mem alpha k 1 _ hs]
    by_cases hb : gid ∈ bm
    · cases hbidx : idxOf bm gid with
      | none => exact absurd (idxOf_eq_none_iff.1 hbidx) (by simpa using hb)
      | some j =>
        rw [lookup_rrfPassBm_mem alpha k 1 _ hbm hbidx, if_pos (Or.inl hb)]
        simp only [rrfContribution, hbidx, idxOf_eq_none_iff.2 hs]
        have h1 : (1 : ℕ) + j = j + 1 := by omega
        rw [h1]
        ring_nf
    · rw [lookup_rrfPassBm_not_mem alpha k 1 _ hb,
        if_neg (by simp [hb, hs])]
      simp [lookupScore]

theorem keys_reciprocalRankFusion_nodup (bm sem : List ℕ) (alpha : ℚ)
    (k : ℕ) : ((reciprocalRankFusion bm sem alpha k).map Prod.fst).Nodup := by
  have hperm := (sortDesc_perm Prod.snd (rrfScores bm sem alpha k)).map Prod.fst
  exact hperm.nodup_iff.2 (keys_rrfScores_nodup bm sem alpha k)

theorem lookup_reciprocalRankFusion (bm sem : List ℕ) (alpha : ℚ) (k : ℕ)
    (gid : ℕ) :
    lookupScore (reciprocalRankFusion bm sem alpha k) gid
      = lookupScore (rrfScores bm sem alpha k) gid :=
  lookupScore_perm (keys_reciprocalRankFusion_nodup bm sem alpha k)
    (sortDesc_perm Prod.snd (rrfScores bm sem alpha k))

/-- **C1**: in Reciprocal Rank Fusion mode each input list is ranked 1-based
in descending order of raw score (the hypotheses say the result lists arrive
sorted descending, as the BM25 and semantic passes produce them, so the
1-based position used by the code is exactly that rank); for every item the
contribution from a list is `1/(k + rank_in_list)` with `k` defaulting to 60;
an item absent from a list contributes `0` from that list; and the fused
score equals `alpha × rrf_lexical + (1-alpha) × rrf_semantic`. -/
theorem rrf_fused_score_formula (bmRanked semRanked : List (ℕ × ℚ))
    (alpha : ℚ) (k gid : ℕ)
    (_hbmSorted : bmRanked.Sorted (keyGE Prod.snd))
    (_hsemSorted : semRanked.Sorted (keyGE Prod.snd))
    (hbm : (bmRanked.map Prod.fst).Nodup)
    (hsem : (semRanked.map Prod.fst).Nodup) :
    (lookupScore (reciprocalRankFusion (bmRanked.map Prod.fst)
        (semRanked.map Prod.fst) alpha k) gid
      = if gid ∈ bmRanked.map Prod.fst ∨ gid ∈ semRanked.map Prod.fst then
          some (alpha * rrfContribution (bmRanked.map Prod.fst) k gid
            + (1 - alpha) * rrfContribution (semRanked.map Prod.fst) k gid)
        else none)
      ∧ rrfDefaultK = 60 := by
  refine ⟨?_, rfl⟩
  rw [lookup_reciprocalRankFusion, lookup_rrfScores _ _ _ _ _ hbm hsem]

/-- Witness for C1 at a concrete input: lexical ranking `[1, 2]` (raw scores
3 and 2), semantic ranking `[2]` (raw score 1/2), `alpha = 1/2`, `k = 60`:
item 2 is fused to `1/2 · 1/62 + 1/2 · 1/61`. -/
theorem rrf_fused_score_formula_witness :
    lookupScore (reciprocalRankFusion [1, 2] [2] (1 / 2) 60) 2
      = some ((1 / 2) * (1 / (62 : ℚ)) + (1 - 1 / 2) * (1 / (61 : ℚ))) := by
  have h := (rrf_fused_score_formula [(1, (3 : ℚ)), (2, 2)] [(2, 1 / 2)]
    (1 / 2) 60 2 (by norm_num [List.sorted_cons, keyGE])
    (by norm_num [List.sorted_cons, keyGE]) (by decide) (by decide)).1
  simp only [List.map_cons, List.map_nil] at h
  rw [h]
  norm_num [rrfContribution, idxOf]

/-- **C3** (counterexample): the fused list is *not* tie-broken by ascending
item id.  With `alpha = 1/2`, `k = 60`, lexical list `[2]` and semantic list
`[1]`, both items receive the same fused score `1/122`, and the code outputs
id 2 before id 1 (Python dict insertion order: lexical items first),
violating the claimed strict-descending/ascending-id order. -/
theorem fusion_tie_order_counterexample :
    reciprocalRankFusion [2] [1] (1 / 2) 60 = [(2, 1 / 122), (1, 1 / 122)]
      ∧ ¬ claimTieOrder (reciprocalRankFusion [2] [1] (1 / 2) 60) := by
  have hval : reciprocalRankFusion [2] [1] (1 / 2) 60
      = [(2, 1 / 122), (1, 1 / 122)] := by
    norm_num [reciprocalRankFusion, rrfScores, rrfPassBm, rrfPassSem, setScore,
      addScore, sortDesc, List.insertionSort, List.orderedInsert, keyGE]
  refine ⟨hval, ?_⟩
  rw [hval]
  norm_num [claimTieOrder, List.pairwise_cons]

/-- **C8**: scaling every raw lexical score by a positive constant before the
lexical list is ranked leaves the entire RRF fused output (ids and fused
scores, hence the fused ordering) unchanged. -/
theorem rrf_scale_invariance (lexRaw : List (ℕ × ℚ)) (semIds : List ℕ)
    (alpha : ℚ) (k : ℕ) (c : ℚ) (hc : 0 < c) :
    reciprocalRankFusion (rankIdsDesc (scaleScores c lexRaw)) semIds alpha k
      = reciprocalRankFusion (rankIdsDesc lexRaw) semIds alpha k := by
  have hids : rankIdsDesc (scaleScores c lexRaw) = rankIdsDesc lexRaw := by
    unfold rankIdsDesc scaleScores sortDesc
    rw [← List.map_insertionSort (keyGE Prod.snd) (keyGE Prod.snd)
      (fun p => (p.1, c * p.2)) lexRaw ?_]
    · rw [List.map_map]
      exact List.map_congr_left (fun a _ => rfl)
    · intro a _ b _
      exact (mul_le_mul_left hc).symm
  rw [hids]

/-- Witness for C8 at a concrete input: scaling the raw lexical scores of
`[(5, 1), (7, 3)]` by `c = 2 > 0` leaves the fused output unchanged. -/
theorem rrf_scale_invariance_witness :
    (0 : ℚ) < 2
      ∧ reciprocalRankFusion (rankIdsDesc (scaleScores 2 [(5, 1), (7, 3)]))
          [7] (1 / 2) 60
        = reciprocalRankFusion (rankIdsDesc [(5, 1), (7, 3)]) [7] (1 / 2) 60 :=
  ⟨by norm_num,
    rrf_scale_invariance [(5, 1), (7, 3)] [7] (1 / 2) 60 2 (by norm_num)⟩

theorem ranks_of_enum (l : List SearchResult) :
    ((l.enum.map (fun p => { p.2 with rank := p.1 + 1 })).map SearchResult.rank)
      = List.range' 1 l.length := by
  rw [List.map_map]
  have h1 : (SearchResult.rank ∘ fun p : ℕ × SearchResult =>
      { p.2 with rank := p.1 + 1 }) = (fun p : ℕ × SearchResult => p.1 + 1) :=
    rfl
  have h2 : (fun p : ℕ × SearchResult => p.1 + 1)
      = ((· + 1) ∘ Prod.fst) := rfl
  rw [h1, h2, ← List.map_map, List.enum_map_fst, List.range'_eq_map_range]
  exact List.map_congr_left (fun a _ => by omega)

theorem scores_of_enum (l : List SearchResult) :
    ((l.enum.map (fun p => { p.2 with rank := p.1 + 1 })).map
        SearchResult.score)
      = l.map SearchResult.score := by
  rw [List.map_map]
  have h1 : (SearchResult.score ∘ fun p : ℕ × SearchResult =>
      { p.2 with rank := p.1 + 1 }) = (SearchResult.score ∘ Prod.snd) := rfl
  rw [h1, ← List.map_map, List.enum_map_snd]

/-- **C3** (amended): fused result lists are sorted *non-strictly* descending
by fused score with ties kept in first-encounter order (see the
counterexample for ties not being broken by ascending id); the RRF output
contains each item id at most once (unconditionally: the Python `scores`
dict cannot hold duplicate keys); and the core service's
`_apply_fusion_ranking` assigns `rank` contiguously `1..N` over its
score-sorted output. -/
theorem fusion_output_invariants (bm sem : List ℕ) (alpha : ℚ) (k : ℕ)
    (enumIds : List ℕ) (bmRes semRes : List (GameInfo × ℚ)) (bmW semW : ℚ) :
    (reciprocalRankFusion bm sem alpha k).Pairwise
        (fun p q => q.2 ≤ p.2)
      ∧ ((reciprocalRankFusion bm sem alpha k).map Prod.fst).Nodup
      ∧ (applyFusionRankingCore enumIds bmRes semRes bmW semW).map
            SearchResult.rank
          = List.range' 1
            (applyFusionRankingCore enumIds bmRes semRes bmW semW).length
      ∧ ((applyFusionRankingCore enumIds bmRes semRes bmW semW).map
            SearchResult.score).Pairwise (fun a b => b ≤ a) := by
  refine ⟨sortDesc_sorted Prod.snd _,
    keys_reciprocalRankFusion_nodup bm sem alpha k, ?_, ?_⟩
  · unfold applyFusionRankingCore
    rw [ranks_of_enum]
    congr 1
    simp
  · unfold applyFusionRankingCore
    rw [scores_of_enum]
    exact List.pairwise_map.2 (sortDesc_sorted SearchResult.score _)

/-- **C7** (counterexample): the mock BM25 scorer multiplies every positive
score by `0.8 + random.random() * 0.4`; two legal draws of the hidden
`random.random()` stream (`0` and `1/2`, both in `[0, 1)`) give different
outputs on the same catalog, query, and configuration, so `search` is not a
function of catalog + query + filters + fusion config alone. -/
theorem mock_bm25_random_counterexample :
    (0 : ℚ) ≤ 0 ∧ (0 : ℚ) < 1 ∧ (0 : ℚ) ≤ 1 / 2 ∧ (1 / 2 : ℚ) < 1
      ∧ mockBm25Search (fun s => [s]) 3 2 1
          [⟨1, "dota", "", [], "Mixed", false, 0⟩] "dota" (fun _ => 0)
        ≠ mockBm25Search (fun s => [s]) 3 2 1
          [⟨1, "dota", "", [], "Mixed", false, 0⟩] "dota" (fun _ => 1 / 2) := by
  refine ⟨by norm_num, by norm_num, by norm_num, by norm_num, ?_⟩
  have hdnil : (['d', 'o', 't', 'a'] : List Char) ≠ [] := by decide
  have hdstr : ("dota" : String) ≠ "" := by decide
  norm_num [mockBm25Search, mockBm25Loop, mockBm25Score, pyStrLower, pyJoin,
    pySubstr, sortDesc, List.insertionSort, List.orderedInsert, keyGE,
    hdnil, hdstr]

theorem mockBm25Loop_congr (tok : String → List String) (tB gB dW : ℚ)
    (queryTokens : List String) (rng1 rng2 : ℕ → ℚ) :
    ∀ (games : List GameInfo) (pos : ℕ),
      (∀ i, pos ≤ i →
        i < pos + positiveCount tok tB gB dW queryTokens games →
        rng1 i = rng2 i) →
      mockBm25Loop tok tB gB dW queryTokens rng1 games pos
        = mockBm25Loop tok tB gB dW queryTokens rng2 games pos := by
  intro games
  induction games with
  | nil => intro pos h; rfl
  | cons g rest ih =>
    intro pos h
    unfold mockBm25Loop
    by_cases hs : 0 < mockBm25Score tok tB gB dW queryTokens g
    · have hcnt : positiveCount tok tB gB dW queryTokens (g :: rest)
          = positiveCount tok tB gB dW queryTokens rest + 1 := by
        simp [positiveCount, List.countP_cons, hs]
      rw [if_pos hs, if_pos hs,
        h pos le_rfl (by rw [hcnt]; omega),
        ih (pos + 1) (fun i h1 h2 => h i (by omega) (by rw [hcnt]; omega))]
    · have hcnt : positiveCount tok tB gB dW queryTokens (g :: rest)
          = positiveCount tok tB gB dW queryTokens rest := by
        simp [positiveCount, List.countP_cons, hs]
      rw [if_neg hs, if_neg hs,
        ih pos (fun i h1 h2 => h i h1 (by rw [hcnt]; omega))]

/-- **C7** (amended): the mock search pipeline is deterministic only up to
the hidden random draws: `_mock_bm25_search` is a function of the catalog,
the query, the scoring configuration and the first `positiveCount` values of
the `random.random()` stream (one draw per positively-scored game) — two
runs whose streams agree on that prefix return identical ordering and
scores. -/
theorem mock_bm25_deterministic_given_rng (tok : String → List String)
    (tB gB dW : ℚ) (games : List GameInfo) (query : String)
    (rng1 rng2 : ℕ → ℚ)
    (h : ∀ i, i < positiveCount tok tB gB dW (tok query) games →
      rng1 i = rng2 i) :
    mockBm25Search tok tB gB dW games query rng1
      = mockBm25Search tok tB gB dW games query rng2 := by
  unfold mockBm25Search
  by_cases hq : tok query = []
  · rw [if_pos hq, if_pos hq]
  · rw [if_neg hq, if_neg hq,
      mockBm25Loop_congr tok tB gB dW (tok query) rng1 rng2 games 0
        (fun i h1 h2 => h i (by omega))]

/-- Witness for the amended C7: two streams that agree on the single draw
the run makes (but differ later) produce identical results. -/
theorem mock_bm25_deterministic_given_rng_witness :
    mockBm25Search (fun s => [s]) 3 2 1
        [⟨1, "dota", "", [], "Mixed", false, 0⟩] "dota"
        (fun i => if i = 0 then 1 / 3 else 0)
      = mockBm25Search (fun s => [s]) 3 2 1
        [⟨1, "dota", "", [], "Mixed", false, 0⟩] "dota"
        (fun i => if i = 0 then 1 / 3 else 5) := by
  apply mock_bm25_deterministic_given_rng
  intro i hi
  have hcount : positiveCount (fun s => [s]) 3 2 1
      ((fun s : String => [s]) "dota")
      [⟨1, "dota", "", [], "Mixed", false, 0⟩] = 1 := by
    have hdstr : ("dota" : String) ≠ "" := by decide
    have hdnil : (['d', 'o', 't', 'a'] : List Char) ≠ [] := by decide
    norm_num [positiveCount, mockBm25Score, pyStrLower, pyJoin, pySubstr,
      List.countP_cons, List.countP_nil, hdstr, hdnil]
  rw [hcount] at hi
  have : i = 0 := by omega
  subst this
  rfl

/-! ### C2 — linear fusion -/

theorem lookupScore_map_value (ids : List ℕ) (f : ℕ → ℚ) {gid : ℕ}
    (h : gid ∈ ids) :
    lookupScore (ids.map (fun i => (i, f i))) gid = some (f gid) := by
  induction ids with
  | nil => simp at h
  | cons x rest ih =>
    by_cases hx : x = gid
    · subst hx
      simp [lookupScore]
    · rcases List.mem_cons.1 h with h' | h'
      · exact absurd h'.symm hx
      · simp [lookupScore, hx, ih h']

theorem lookup_foldl_setScore (f : ℚ → ℚ) :
    ∀ (l acc : List (ℕ × ℚ)) (gid : ℕ),
      (l.map Prod.fst).Nodup →
      (∀ x ∈ l.map Prod.fst, x ∉ acc.map Prod.fst) →
      lookupScore (l.foldl (fun a p => setScore a p.1 (f p.2)) acc) gid
        = if gid ∈ l.map Prod.fst then (lookupScore l gid).map f
          else lookupScore acc gid := by
  intro l
  induction l with
  | nil =>
    intro acc gid _ _
    simp
  | cons p rest ih =>
    intro acc gid hnd hdisj
    rw [List.map_cons, List.nodup_cons] at hnd
    rw [List.foldl_cons]
    have hdisj' : ∀ x ∈ rest.map Prod.fst,
        x ∉ (setScore acc p.1 (f p.2)).map Prod.fst := by
      intro x hx
      rw [keys_setScore]
      split
      · exact hdisj x (List.mem_cons_of_mem _ hx)
      · rw [List.mem_append, List.mem_singleton]
        push_neg
        exact ⟨hdisj x (List.mem_cons_of_mem _ hx),
          fun hcontra => hnd.1 (hcontra ▸ hx)⟩
    by_cases hg : gid = p.1
    · subst hg
      rw [ih (setScore acc p.1 (f p.2)) p.1 hnd.2 hdisj',
        if_neg hnd.1, lookupScore_setScore_self,
        if_pos (by rw [List.map_cons]; exact List.mem_cons_self _ _)]
      simp [lookupScore]
    · rw [ih (setScore acc p.1 (f p.2)) gid hnd.2 hdisj']
      by_cases hr : gid ∈ rest.map Prod.fst
      · rw [if_pos hr,
          if_pos (by rw [List.map_cons]; exact List.mem_cons_of_mem _ hr)]
        have hne : ¬ p.1 = gid := fun hh => hg hh.symm
        simp [lookupScore, hne]
      · rw [if_neg hr,
          if_neg (by
            rw [List.map_cons, List.mem_cons]
            push_neg
            exact ⟨hg, hr⟩),
          lookupScore_setScore_ne _ _ (fun hh => hg hh.symm)]

theorem lookup_normalizeScoresAFR {l : List (ℕ × ℚ)}
    (h : (l.map Prod.fst).Nodup) (gid : ℕ) :
    lookupScore (normalizeScoresAFR l) gid
      = (lookupScore l gid).map (fun s =>
          (s - listMinD (l.map Prod.snd)) /
            (if listMaxD (l.map Prod.snd) ≠ listMinD (l.map Prod.snd) then
              listMaxD (l.map Prod.snd) - listMinD (l.map Prod.snd)
            else 1)) := by
  by_cases hl : l = []
  · subst hl
    simp [normalizeScoresAFR, lookupScore]
  · have hdef : normalizeScoresAFR l = setAllScores (fun s =>
        (s - listMinD (l.map Prod.snd)) /
          (if listMaxD (l.map Prod.snd) ≠ listMinD (l.map Prod.snd) then
            listMaxD (l.map Prod.snd) - listMinD (l.map Prod.snd)
          else 1)) l := by
      unfold normalizeScoresAFR
      rw [if_neg hl]
    have hfold := lookup_foldl_setScore (fun s =>
        (s - listMinD (l.map Prod.snd)) /
          (if listMaxD (l.map Prod.snd) ≠ listMinD (l.map Prod.snd) then
            listMaxD (l.map Prod.snd) - listMinD (l.map Prod.snd)
          else 1)) l [] gid h (by simp)
    rw [hdef, setAllScores]
    refine hfold.trans ?_
    by_cases hg : gid ∈ l.map Prod.fst
    · rw [if_pos hg]
    · rw [if_neg hg, lookupScore_eq_none_iff.2 hg]
      simp [lookupScore]

theorem getD_normalizeScoresAFR {l : List (ℕ × ℚ)}
    (h : (l.map Prod.fst).Nodup) (gid : ℕ) :
    (lookupScore (normalizeScoresAFR l) gid).getD 0 = minMaxValue l gid := by
  rw [lookup_normalizeScoresAFR h gid]
  unfold minMaxValue
  cases lookupScore l gid <;> simp

theorem foldl_min_const {c : ℚ} :
    ∀ (rest : List ℚ) (s : ℚ), (∀ x ∈ rest, x = c) → s = c →
      rest.foldl min s = c := by
  intro rest
  induction rest with
  | nil =>
    intro s _ hs
    simpa using hs
  | cons x r ih =>
    intro s hall hs
    rw [List.foldl_cons]
    exact ih _ (fun y hy => hall y (List.mem_cons_of_mem _ hy))
      (by rw [hall x (List.mem_cons_self _ _), hs]; exact min_self c)

theorem listMinD_const {c : ℚ} {l : List ℚ} (hne : l ≠ [])
    (h : ∀ s ∈ l, s = c) : listMinD l = c := by
  cases l with
  | nil => exact absurd rfl hne
  | cons s rest =>
    exact foldl_min_const rest s
      (fun y hy => h y (List.mem_cons_of_mem _ hy))
      (h s (List.mem_cons_self _ _))

/-- **C2** (amended): in Linear fusion mode each score list is normalized
independently by min-max scaling `(s - min) / (max - min)` — except that a
non-empty list whose scores are all equal normalizes every entry to `0.0`
(the implementation substitutes a score range of `1.0` and `s - min = 0`),
not `1.0` as the spec says; an empty list contributes `0.0`, an item
missing from one list uses `0.0` for that signal, and the fused score is
`alpha × norm_lexical + (1-alpha) × norm_semantic`. -/
theorem linear_fusion_score_formula (enumIds : List ℕ)
    (bm faiss : List (ℕ × ℚ)) (alpha : ℚ) (gid : ℕ)
    (henum : enumIds.Nodup) (hmem : gid ∈ enumIds)
    (hbm : (bm.map Prod.fst).Nodup) (hf : (faiss.map Prod.fst).Nodup) :
    lookupScore (applyFusionRankingAlg enumIds bm faiss alpha (1 - alpha))
        gid
      = some (alpha * minMaxValue bm gid + (1 - alpha) * minMaxValue faiss gid)
    ∧ (∀ (l : List (ℕ × ℚ)) (g : ℕ), g ∉ l.map Prod.fst → minMaxValue l g = 0)
    ∧ (∀ (l : List (ℕ × ℚ)) (c : ℚ) (g : ℕ), (∀ p ∈ l, p.2 = c) →
        minMaxValue l g = 0) := by
  refine ⟨?_, ?_, ?_⟩
  · have hkeys : ((enumIds.map (fun g =>
        (g, alpha * (lookupScore (normalizeScoresAFR bm) g).getD 0
          + (1 - alpha) * (lookupScore (normalizeScoresAFR faiss) g).getD 0))
          ).map Prod.fst).Nodup := by
      rw [List.map_map]
      have hcomp : (Prod.fst ∘ fun g : ℕ =>
          (g, alpha * (lookupScore (normalizeScoresAFR bm) g).getD 0
            + (1 - alpha) * (lookupScore (normalizeScoresAFR faiss) g).getD 0))
          = fun g : ℕ => g := rfl
      rw [hcomp]
      simpa using henum
    have hsortkeys : (((sortDesc Prod.snd (enumIds.map (fun g =>
        (g, alpha * (lookupScore (normalizeScoresAFR bm) g).getD 0
          + (1 - alpha) * (lookupScore (normalizeScoresAFR faiss) g).getD 0)))
          ).map Prod.fst)).Nodup :=
      ((sortDesc_perm Prod.snd _).map Prod.fst).nodup_iff.2 hkeys
    unfold applyFusionRankingAlg
    rw [lookupScore_perm hsortkeys (sortDesc_perm Prod.snd _),
      lookupScore_map_value enumIds _ hmem,
      getD_normalizeScoresAFR hbm, getD_normalizeScoresAFR hf]
  · intro l g hg
    simp only [minMaxValue, lookupScore_eq_none_iff.2 hg]
  · intro l c g hconst
    cases hlk : lookupScore l g with
    | none => simp only [minMaxValue, hlk]
    | some s =>
      have hmm := mem_of_lookupScore_eq_some hlk
      have hs : s = c := hconst (g, s) hmm
      have hlne : l ≠ [] := by
        intro hcontra
        rw [hcontra] at hmm
        simp at hmm
      have hminc : listMinD (l.map Prod.snd) = c :=
        listMinD_const (by simpa using hlne)
          (by
            intro y hy
            rcases List.mem_map.1 hy with ⟨p, hp, hpy⟩
            rw [← hpy]
            exact hconst p hp)
      simp only [minMaxValue, hlk, hs, hminc, sub_self, zero_div]

/-- **C2** (counterexample): a non-empty score list whose scores are all
equal (here `[(1, 5), (2, 5)]`) is normalized to the constant `0.0`, not
`1.0`: the code substitutes `score_range = 1.0` and computes
`(5 - 5) / 1 = 0`, so with weights `2/5` and `3/5` item 1's fused score is
`0`, where the claim's normalizer (`specNormalize`, constant `1.0`) would
give `2/5`. -/
theorem linear_fusion_constant_counterexample :
    normalizeScoresAFR [(1, 5), (2, 5)] = [(1, 0), (2, 0)]
      ∧ specNormalize [(1, 5), (2, 5)] = [(1, 1), (2, 1)]
      ∧ lookupScore (applyFusionRankingAlg [1, 2] [(1, 5), (2, 5)] []
          (2 / 5) (3 / 5)) 1 = some 0
      ∧ (0 : ℚ) ≠ 2 / 5 := by
  have hne : ([((1 : ℕ), (5 : ℚ)), ((2 : ℕ), (5 : ℚ))] : List (ℕ × ℚ)) ≠ [] :=
    List.cons_ne_nil _ _
  refine ⟨?_, ?_, ?_, by norm_num⟩ <;>
    norm_num [normalizeScoresAFR, specNormalize, applyFusionRankingAlg,
      setAllScores, listMaxD, listMinD, setScore, lookupScore, sortDesc,
      List.insertionSort, List.orderedInsert, keyGE, hne]

/-- Witness for the amended C2 at a concrete input: lexical `[(1, 4),
(2, 0)]`, semantic `[(2, 3)]`, `alpha = 1/2`: item 1 normalizes to 1
lexically, is missing semantically (0), and fuses to `1/2`. -/
theorem linear_fusion_score_formula_witness :
    lookupScore (applyFusionRankingAlg [1, 2] [(1, 4), (2, 0)] [(2, 3)]
        (1 / 2) (1 - 1 / 2)) 1 = some (1 / 2) := by
  have h := (linear_fusion_score_formula [1, 2] [(1, 4), (2, 0)] [(2, 3)]
    (1 / 2) 1 (by decide) (by decide) (by decide) (by decide)).1
  rw [h]
  norm_num [minMaxValue, lookupScore, listMaxD, listMinD]

/-! ### C6 — tokenizers -/

theorem runsAux_ne_nil (keep : Char → Bool) :
    ∀ (l acc : List Char), ∀ t ∈ runsAux keep l acc, t ≠ [] := by
  intro l
  induction l with
  | nil =>
    intro acc t ht
    unfold runsAux at ht
    split at ht
    · simp at ht
    · next hacc =>
      rw [List.mem_singleton] at ht
      subst ht
      simpa using hacc
  | cons c rest ih =>
    intro acc t ht
    unfold runsAux at ht
    split at ht
    · exact ih _ t ht
    · split at ht
      · exact ih _ t ht
      · next hacc =>
        rcases List.mem_cons.1 ht with h | h
        · subst h
          simpa using hacc
        · exact ih _ t h

theorem runsAux_chars (keep : Char → Bool) :
    ∀ (l acc : List Char), ∀ t ∈ runsAux keep l acc, ∀ c ∈ t,
      (keep c = true ∧ c ∈ l) ∨ c ∈ acc := by
  intro l
  induction l with
  | nil =>
    intro acc t ht c hc
    unfold runsAux at ht
    split at ht
    · simp at ht
    · rw [List.mem_singleton] at ht
      subst ht
      exact Or.inr (List.mem_reverse.1 hc)
  | cons c0 rest ih =>
    intro acc t ht c hc
    unfold runsAux at ht
    split at ht
    · next hkeep =>
      rcases ih _ t ht c hc with ⟨hk, hmem⟩ | hmem
      · exact Or.inl ⟨hk, List.mem_cons_of_mem _ hmem⟩
      · rcases List.mem_cons.1 hmem with h | h
        · subst h
          exact Or.inl ⟨hkeep, List.mem_cons_self _ _⟩
        · exact Or.inr h
    · split at ht
      · rcases ih _ t ht c hc with ⟨hk, hmem⟩ | hmem
        · exact Or.inl ⟨hk, List.mem_cons_of_mem _ hmem⟩
        · simp at hmem
      · rcases List.mem_cons.1 ht with h | h
        · subst h
          exact Or.inr (List.mem_reverse.1 hc)
        · rcases ih _ t h c hc with ⟨hk, hmem⟩ | hmem
          · exact Or.inl ⟨hk, List.mem_cons_of_mem _ hmem⟩
          · simp at hmem

/-- For every ASCII character, if its lower-cased form is a word character
then that form is a lower-case letter, a digit, or an underscore. -/
theorem ascii_lower_word (c0 : Char) (h : c0.toNat < 128)
    (hw : isPyWordChar c0.toLower = true) :
    (c0.toLower.isLower || c0.toLower.isDigit || c0.toLower = '_') = true := by
  have hall : ∀ n, n < 128 →
      isPyWordChar (Char.ofNat n).toLower = true →
      ((Char.ofNat n).toLower.isLower || (Char.ofNat n).toLower.isDigit
        || (Char.ofNat n).toLower = '_') = true := by decide
  have h2 := hall c0.toNat h
  rw [Char.ofNat_toNat] at h2
  exact h2 hw

/-- **C6** (amended): both tokenizers lower-case their input and keep
exactly the maximal runs of word characters — `[a-z0-9_]` after lowering,
underscore *included* (the regex class is `\w`, not `[a-z0-9]`);
`tokenize_text` additionally drops tokens shorter than 2 characters, while
the backend `_tokenize` keeps single-character tokens; both map the empty
string to the empty token list.  (Stated on ASCII inputs, where the model
of `\w`/`str.lower` is exact.) -/
theorem tokenize_properties (text : String)
    (hascii : ∀ c ∈ text.data, c.toNat < 128) :
    (tokenize_text "" = [] ∧ tokenizeBackend "" = [])
      ∧ (∀ tok ∈ tokenize_text text, 2 ≤ tok.length
          ∧ ∀ c ∈ tok.data, (c.isLower || c.isDigit || c = '_') = true)
      ∧ (∀ tok ∈ tokenizeBackend text, 1 ≤ tok.length
          ∧ ∀ c ∈ tok.data, (c.isLower || c.isDigit || c = '_') = true) := by
  refine ⟨⟨rfl, rfl⟩, ?_, ?_⟩
  · intro tok htok
    unfold tokenize_text at htok
    split at htok
    · simp at htok
    · rcases List.mem_map.1 htok with ⟨t, ht, htt⟩
      rw [List.mem_filter] at ht
      have hlen : 1 < t.length := by
        have := ht.2
        rw [Bool.and_eq_true, decide_eq_true_eq] at this
        exact this.2
      subst htt
      refine ⟨hlen, ?_⟩
      intro c hc
      have hchar := runsAux_chars (fun c => ! isPySpaceChar c) _ [] t ht.1 c hc
      rcases hchar with ⟨hkeep, hmem⟩ | habs
      · rcases List.mem_map.1 hmem with ⟨c1, hc1, hsub⟩
        rcases List.mem_map.1 hc1 with ⟨c0, hc0, hlow⟩
        by_cases hword : (isPyWordChar c1 || isPySpaceChar c1) = true
        · rw [if_pos hword] at hsub
          subst hsub
          rw [Bool.or_eq_true] at hword
          rcases hword with hword | hspace
          · subst hlow
            exact ascii_lower_word c0 (hascii c0 hc0) hword
          · simp [hspace] at hkeep
        · rw [if_neg hword] at hsub
          subst hsub
          simp [isPySpaceChar] at hkeep
      · simp at habs
  · intro tok htok
    unfold tokenizeBackend at htok
    split at htok
    · simp at htok
    · rcases List.mem_map.1 htok with ⟨t, ht, htt⟩
      subst htt
      have hne := runsAux_ne_nil isPyWordChar _ [] t ht
      refine ⟨by
        show 1 ≤ t.length
        cases t with
        | nil => exact absurd rfl hne
        | cons a b => simp, ?_⟩
      intro c hc
      have hchar := runsAux_chars isPyWordChar _ [] t ht c hc
      rcases hchar with ⟨hkeep, hmem⟩ | habs
      · rcases List.mem_map.1 hmem with ⟨c0, hc0, hlow⟩
        subst hlow
        exact ascii_lower_word c0 (hascii c0 hc0) hkeep
      · simp at habs

/-- Witness for the amended C6: on the ASCII input `"Dota 2up"` every token
of `tokenize_text` has length at least 2 and only `[a-z0-9_]` characters. -/
theorem tokenize_properties_witness :
    (∀ c ∈ ("Dota 2up" : String).data, c.toNat < 128)
      ∧ (∀ tok ∈ tokenize_text "Dota 2up", 2 ≤ tok.length
          ∧ ∀ c ∈ tok.data, (c.isLower || c.isDigit || c = '_') = true) :=
  ⟨by decide, (tokenize_properties "Dota 2up" (by decide)).2.1⟩

/-- **C6** (counterexample): `tokenize_text "a_b" = ["a_b"]` — the
underscore is a `\w` character, not a separator, so the claim's token
alphabet `[a-z0-9]` is wrong; and the backend `_tokenize` keeps the
1-character tokens of `"a b"`, so "drops every token shorter than 2" fails
for it. -/
theorem tokenize_counterexample :
    tokenize_text "a_b" = ["a_b"]
      ∧ (('_' : Char).isLower || ('_' : Char).isDigit) = false
      ∧ tokenizeBackend "a b" = ["a", "b"]
      ∧ ("a" : String).length = 1 := by
  exact ⟨by decide, by decide, by decide, by decide⟩

/-! ### C9 — `search_bm25_index` -/

/-- **C9**: for every query, corpus, score array and limit,
`search_bm25_index` returns at most `limit` pairs, sorted non-increasing in
score, and every returned score is strictly positive — zero-score documents
are omitted rather than returned with score `0.0`. -/
theorem search_bm25_index_invariants (query : String) (corpus : List ℕ)
    (scores : List ℚ) (limit : ℕ) :
    (search_bm25_index query corpus scores limit).length ≤ limit
      ∧ ((search_bm25_index query corpus scores limit).map
          Prod.snd).Pairwise (fun a b => b ≤ a)
      ∧ ∀ p ∈ search_bm25_index query corpus scores limit, 0 < p.2 := by
  unfold search_bm25_index
  split
  · simp
  · split
    · simp
    · refine ⟨?_, ?_, ?_⟩
      · rw [List.length_take]
        exact min_le_left _ _
      · have hsorted := sortDesc_sorted Prod.snd
          (scores.enum.filterMap (fun p =>
            if p.1 < corpus.length ∧ 0 < p.2 then
              some (corpus.getD p.1 0, p.2)
            else none))
        have hmap : ((sortDesc Prod.snd (scores.enum.filterMap (fun p =>
            if p.1 < corpus.length ∧ 0 < p.2 then
              some (corpus.getD p.1 0, p.2)
            else none))).map Prod.snd).Pairwise (fun a b : ℚ => b ≤ a) :=
          List.pairwise_map.2 hsorted
        exact hmap.sublist ((List.take_sublist _ _).map Prod.snd)
      · intro p hp
        have hp' := mem_sortDesc Prod.snd |>.1
          (List.mem_of_mem_take hp)
        rcases List.mem_filterMap.1 hp' with ⟨a, _, ha⟩
        split at ha
        · next hcond =>
          cases ha
          exact hcond.2
        · cases ha

/-! ### C5 — filter conjunction -/

theorem geCond_iff (o : Option ℕ) (v : ℕ) :
    geCond o v = true ↔ ∀ m, o = some m → m ≤ v := by
  cases o <;> simp [geCond]

theorem leCond_iff (o : Option ℕ) (v : ℕ) :
    leCond o v = true ↔ ∀ m, o = some m → v ≤ m := by
  cases o <;> simp [leCond]

theorem typeCond_iff (o : Option String) (v : String) :
    typeCond o v = true ↔ ∀ t, o = some t → t ≠ "" → v = t := by
  cases o with
  | none => simp [typeCond]
  | some t =>
    by_cases ht : t = "" <;> simp [typeCond, ht]

theorem setCond_iff (o : Option (List String)) (mem : List String) :
    setCond o mem = true ↔ ∀ gs, o = some gs → ∀ x ∈ gs, x ∈ mem := by
  cases o with
  | none => simp [setCond]
  | some gs =>
    by_cases hgs : gs = [] <;>
      simp [setCond, hgs, List.all_eq_true]

theorem dateAfterCond_iff (o : Option String) (v : String) :
    dateAfterCond o v = true ↔ ∀ d, o = some d → d ≠ "" → d ≤ v := by
  cases o with
  | none => simp [dateAfterCond]
  | some d =>
    by_cases hd : d = "" <;> simp [dateAfterCond, hd]

theorem dateBeforeCond_iff (o : Option String) (v : String) :
    dateBeforeCond o v = true ↔ ∀ d, o = some d → d ≠ "" → v ≤ d := by
  cases o with
  | none => simp [dateBeforeCond]
  | some d =>
    by_cases hd : d = "" <;> simp [dateBeforeCond, hd]

/-- **C5** (amended): the filter stage of `search` is a pure conjunction of
the *applied* sub-conditions, where the price bounds and `min_reviews` are
applied whenever non-null but `type`, `genres`, `categories` and the date
bounds — guarded by Python truthiness — are applied only when non-null and
non-empty (an empty string or empty list imposes no constraint); a present
non-empty `genres`/`categories` filter requires the item to contain every
listed value (subset check, not mere intersection). -/
theorem filter_conjunction (f : SearchFilters) (g : GameRow) :
    matchesFilters f g = true ↔
      ((∀ m, f.price_min = some m → m ≤ g.price_cents)
        ∧ (∀ m, f.price_max = some m → g.price_cents ≤ m)
        ∧ (∀ t, f.type = some t → t ≠ "" → g.type = t)
        ∧ (∀ gs, f.genres = some gs → ∀ x ∈ gs, x ∈ g.genres)
        ∧ (∀ cs, f.categories = some cs → ∀ x ∈ cs, x ∈ g.categories)
        ∧ (∀ d, f.release_date_after = some d → d ≠ "" → d ≤ g.release_date)
        ∧ (∀ d, f.release_date_before = some d → d ≠ "" →
            g.release_date ≤ d)
        ∧ (∀ m, f.min_reviews = some m → m ≤ g.total_reviews)) := by
  unfold matchesFilters
  simp only [Bool.and_eq_true]
  exact and_congr (geCond_iff _ _) (and_congr (leCond_iff _ _)
    (and_congr (typeCond_iff _ _) (and_congr (setCond_iff _ _)
      (and_congr (setCond_iff _ _) (and_congr (dateAfterCond_iff _ _)
        (and_congr (dateBeforeCond_iff _ _) (geCond_iff _ _)))))))

/-- **C5** (counterexample): a present, non-null `type` filter holding the
empty string imposes *no* constraint (Python `if filters.type:` treats `""`
as absent), so an item whose type is `"game"` passes even though it
violates the present sub-condition `type = ""` — the claim's "passes iff it
satisfies every present (non-null) sub-condition" is false. -/
theorem filter_truthiness_counterexample :
    matchesFilters filterTypeEmpty gameRowEx = true
      ∧ ¬ specFilterPred filterTypeEmpty gameRowEx := by
  constructor
  · decide
  · intro h
    have := h.2.2.1 "" rfl
    simp [gameRowEx] at this

/-! ### C4 — degradation of `hybrid_search` -/

/-- **C4**: on the hybrid path, if the semantic pass raises (embedding
backend failure) then `hybrid_search` still returns `.ok` — the error is
never propagated to the caller — with exactly the lexical result set
(truncated to `limit`, hence non-empty when lexical matches exist and
`limit > 0`), flagged as degraded via `search_type =
"hybrid_fallback_bm25"` with the failure annotated in `fallback_reason`. -/
theorem hybrid_search_degrades (bmResults : List (ℕ × ℚ)) (bmTotal : ℕ)
    (e : String) (alpha : ℚ) (offset limit : ℕ)
    (hne : bmResults ≠ []) (hlim : 0 < limit) :
    hybrid_search (.ok (bmResults, bmTotal)) (.error e) alpha offset limit
        = .ok ⟨bmResults.take limit, bmTotal, "hybrid_fallback_bm25", alpha,
            some ("Semantic search error: " ++ e)⟩
      ∧ bmResults.take limit ≠ []
      ∧ (some ("Semantic search error: " ++ e) : Option String) ≠ none := by
  refine ⟨rfl, ?_, by simp⟩
  rw [Ne, List.take_eq_nil_iff]
  push_neg
  exact ⟨by omega, hne⟩

/-- Witness for C4 at a concrete input: one lexical match, a failing
semantic pass, `limit = 20`. -/
theorem hybrid_search_degrades_witness :
    hybrid_search (.ok ([((1 : ℕ), (2 : ℚ))], 1)) (.error "model down")
        (1 / 2) 0 20
      = .ok ⟨[((1 : ℕ), (2 : ℚ))].take 20, 1, "hybrid_fallback_bm25", 1 / 2,
          some ("Semantic search error: " ++ "model down")⟩ :=
  (hybrid_search_degrades [((1 : ℕ), (2 : ℚ))] 1 "model down" (1 / 2) 0 20
    (by decide) (by decide)).1

/-! ### C10 — `encode_query` on blank queries -/

/-- **C10**: for every query string that is empty or whitespace-only,
`encode_query` returns the all-zero vector of the embedding dimension (384
for the configured model) instead of raising — the semantic path receives a
zero vector rather than a failure. -/
theorem encode_query_blank_zero (m : EmbedModel) (q : String)
    (hblank : ∀ c ∈ q.data, isPySpaceChar c = true) (hdim : m.dim = 384) :
    encode_query m q = List.replicate 384 0
      ∧ (encode_query m q).length = 384 := by
  have hq : q = "" ∨ pyStrip q = "" := by
    right
    unfold pyStrip
    have h1 : q.data.dropWhile isPySpaceChar = [] := by
      rw [List.dropWhile_eq_nil_iff]
      exact hblank
    rw [h1]
    rfl
  unfold encode_query
  rw [if_pos hq, hdim]
  exact ⟨rfl, List.length_replicate _ _⟩

/-- Witness for C10: a whitespace-only query against a dimension-384 model
yields the 384-long zero vector. -/
theorem encode_query_blank_zero_witness :
    encode_query ⟨384, fun _ => []⟩ " " = List.replicate 384 0 :=
  (encode_query_blank_zero ⟨384, fun _ => []⟩ " " (by decide) rfl).1

end SteamSearch
